import Mathlib

/-
Verification development for the Homebrew AVL containers
(`avltree.hpp`: `AvlTree<T>`, `avlmap.hpp`: `AvlMap<Key, Value>`).

The embedding instantiates the templates at `T = int`, `Key = Value = int`
(the instantiation used by the driver program), modelling C++ `int` as `Int`.
The cached `height` field (`std::int32_t`) is modelled as `Int`; the element
counter `sz` (`std::size_t`) is modelled as `Nat` with arithmetic taken
modulo `2 ^ 64`, so that the unsigned wrap-around of `++sz` / `--sz` is
preserved.  `std::unique_ptr<Node>` pointers become an inductive tree type,
with the null pointer as the `nil` constructor.
-/

/-- Modulus of the C++ `std::size_t` counter `sz` (64-bit unsigned). -/
def szMod : Nat := 2 ^ 64

/-- `++sz` on a `std::size_t` field. -/
def incSz (n : Nat) : Nat := (n + 1) % szMod

/-- `--sz` on a `std::size_t` field (wraps around at zero). -/
def decSz (n : Nat) : Nat := (n + (szMod - 1)) % szMod

/-- Node structure of `AvlMap<int,int>` (`avlmap.hpp` lines 20-44):
`left`, `right` children, `key`, `value`, cached `height`.  `nil` is the
null `std::unique_ptr<Node>`. -/
inductive MTree : Type
  | nil : MTree
  | node (l : MTree) (k : Int) (v : Int) (h : Int) (r : MTree) : MTree
  deriving DecidableEq, Repr

/-- `AvlMap::height` (lines 208-211): `-1` for a null pointer, else the
cached `height` field. -/
def hgtM : MTree → Int
  | .nil => -1
  | .node _ _ _ h _ => h

/-- The assignment `t->height = std::max(height(t->left), height(t->right)) + 1`
performed at the end of `AvlMap::balance` (line 340). -/
def setHM : MTree → MTree
  | .nil => .nil
  | .node l k v _ r => .node l k v (max (hgtM l) (hgtM r) + 1) r

/-- The `left` field of a node.  On `nil` the C++ original would dereference
a null pointer; the `nil` case below is junk standing in for that access and
is never reached from a state the program can produce. -/
def leftOfM : MTree → MTree
  | .nil => .nil
  | .node l _ _ _ _ => l

/-- The `right` field of a node (same caveat as `leftOfM`). -/
def rightOfM : MTree → MTree
  | .nil => .nil
  | .node _ _ _ _ r => r

/-- `AvlMap::rotateWithLeftChild` (lines 350-358), heights updated exactly as
in the source.  A shape the C++ would dereference null on is returned
unchanged (unreachable from program states). -/
def rotLM : MTree → MTree
  | .node (.node a lk lv _ b) x v _ r =>
      .node a lk lv (max (hgtM a) (max (hgtM b) (hgtM r) + 1) + 1)
        (.node b x v (max (hgtM b) (hgtM r) + 1) r)
  | t => t

/-- `AvlMap::rotateWithRightChild` (lines 365-373). -/
def rotRM : MTree → MTree
  | .node l x v _ (.node b rk rv _ c) =>
      .node (.node l x v (max (hgtM l) (hgtM b) + 1) b) rk rv
        (max (hgtM c) (max (hgtM l) (hgtM b) + 1) + 1) c
  | t => t

/-- `AvlMap::doubleWithLeftChild` (lines 381-385):
`rotateWithRightChild(k3->left); rotateWithLeftChild(k3)`. -/
def dblLM : MTree → MTree
  | .node l x v h r => rotLM (.node (rotRM l) x v h r)
  | .nil => .nil

/-- `AvlMap::doubleWithRightChild` (lines 393-397). -/
def dblRM : MTree → MTree
  | .node l x v h r => rotRM (.node l x v h (rotLM r))
  | .nil => .nil

/-- `AvlMap::balance` (lines 321-341): rebalance one node using the cached
heights, then re-derive this node's height.  `hgtM (leftOfM l)` models the
C++ `height(t->left->left)` access. -/
def balanceM : MTree → MTree
  | .nil => .nil
  | .node l k v h r =>
    if hgtM l - hgtM r > 1 then
      if hgtM (leftOfM l) ≥ hgtM (rightOfM l) then
        setHM (rotLM (.node l k v h r))
      else
        setHM (dblLM (.node l k v h r))
    else if hgtM r - hgtM l > 1 then
      if hgtM (rightOfM r) ≥ hgtM (leftOfM r) then
        setHM (rotRM (.node l k v h r))
      else
        setHM (dblRM (.node l k v h r))
    else
      setHM (.node l k v h r)

/-- `AvlMap::insert_util` (lines 257-270): descend by key comparison,
materialize a height-0 leaf in an empty slot, do nothing on an equal key,
and call `balance` on the way back up.  Note the equal-key branch neither
overwrites the stored value nor adjusts `sz`. -/
def insert_utilM (k v : Int) : MTree → MTree
  | .nil => balanceM (.node .nil k v 0 .nil)
  | .node l k' v' h r =>
    if k < k' then balanceM (.node (insert_utilM k v l) k' v' h r)
    else if k' < k then balanceM (.node l k' v' h (insert_utilM k v r))
    else balanceM (.node l k' v' h r)

/-- Key of the leftmost node, i.e. `findMin(t)->key` (lines 297-306).  The
`nil` case is junk for the null-pointer dereference, only ever used under a
guard that excludes it. -/
def minKeyM : MTree → Int
  | .nil => 0
  | .node .nil k _ _ _ => k
  | .node l _ _ _ _ => minKeyM l

/-- `AvlMap::remove_util` (lines 273-294): not-found is a no-op on the tree;
a two-child node receives its successor's key (the stored value is kept —
as in the source, only `t->key` is overwritten); a node with at most one
child is replaced by that child; `balance` runs on the way back up. -/
def remove_utilM (x : Int) : MTree → MTree
  | .nil => .nil
  | .node l k v h r =>
    if x < k then balanceM (.node (remove_utilM x l) k v h r)
    else if k < x then balanceM (.node l k v h (remove_utilM x r))
    else if l ≠ .nil ∧ r ≠ .nil then
      balanceM (.node l (minKeyM r) v h (remove_utilM (minKeyM r) r))
    else
      balanceM (if l ≠ MTree.nil then l else r)

/-- `AvlMap::search` (lines 226-254) reduced to the value it finds: the
iterative descent returns a null slot exactly when no node carries the key,
and the node's slot otherwise; `lookupV` returns the found node's `value`.
(For `Int` keys the `==`/`<` tests of the source agree with this three-way
comparison.) -/
def lookupV (x : Int) : MTree → Option Int
  | .nil => none
  | .node l k v _ r =>
    if x < k then lookupV x l
    else if k < x then lookupV x r
    else some v

/-- The tree effect of `AvlMap::operator[]` on an absent key (lines 155-166):
`search` descends to the null slot where the key belongs and `insert_util`
is invoked on that slot only, creating a height-0 leaf there; no ancestor is
rebalanced and no ancestor height is updated. -/
def slotInsert (k v : Int) : MTree → MTree
  | .nil => .node .nil k v 0 .nil
  | .node l k' v' h r =>
    if k < k' then .node (slotInsert k v l) k' v' h r
    else if k' < k then .node l k' v' h (slotInsert k v r)
    else .node l k' v' h r

/-- State of an `AvlMap<int,int>` object: the `root` pointer and the `sz`
counter. -/
structure AvlMapS : Type where
  tree : MTree
  sz : Nat
  deriving DecidableEq, Repr

/-- A default-constructed `AvlMap` (line 54). -/
def emptyMap : AvlMapS := ⟨.nil, 0⟩

/-- `AvlMap::insert` (lines 130-136): `insert_util` on the root, then `++sz`
(unconditionally, also when the key was already present). -/
def insertM (k v : Int) (m : AvlMapS) : AvlMapS :=
  ⟨insert_utilM k v m.tree, incSz m.sz⟩

/-- `AvlMap::erase` (lines 138-142): `remove_util` on the root, then `--sz`
(unconditionally, also when the key was absent). -/
def eraseM (k : Int) (m : AvlMapS) : AvlMapS :=
  ⟨remove_utilM k m.tree, decSz m.sz⟩

/-- `AvlMap::clear` (lines 115-118): `root.reset(nullptr)`; the `sz` field
is left untouched. -/
def clearM (m : AvlMapS) : AvlMapS :=
  ⟨.nil, m.sz⟩

/-- `AvlMap::operator[]` non-const (lines 155-166): if `search` finds the
key, return its value and leave the map alone; otherwise insert a
default-constructed value (`int()`, i.e. `0`) at the slot found by the
descent and `++sz`.  Returns the referenced value together with the new
state. -/
def bracketM (k : Int) (m : AvlMapS) : Int × AvlMapS :=
  match lookupV k m.tree with
  | some v => (v, m)
  | none => ((0 : Int), ⟨slotInsert k 0 m.tree, incSz m.sz⟩)

/-- The `const` overload of `AvlMap::at` (lines 182-185): its body is
`return at(k);`, which in a const member function resolves to the same
const overload, so the function only ever calls itself.  Modelled with
explicit fuel: `none` means the computation has not produced a result. -/
def atConstM : Nat → Int → AvlMapS → Option Int
  | 0, _, _ => none
  | n + 1, k, m => atConstM n k m

/-- In-order list of `(key, value)` pairs of the tree (the order `print`,
lines 214-222, traverses the nodes in). -/
def entriesM : MTree → List (Int × Int)
  | .nil => []
  | .node l k v _ r => entriesM l ++ (k, v) :: entriesM r

/-- In-order list of keys. -/
def keysM (t : MTree) : List Int := (entriesM t).map Prod.fst

/-- Binary-search-tree ordering property: the in-order key sequence is
strictly ascending. -/
def isBSTM (t : MTree) : Prop := List.Pairwise (· < ·) (keysM t)

/-- Number of nodes reachable from the root. -/
def countM : MTree → Nat
  | .nil => 0
  | .node l _ _ _ r => countM l + countM r + 1

/-- Actual height of a subtree (empty subtree has height `-1`), independent
of the cached `height` fields. -/
def realHeightM : MTree → Int
  | .nil => -1
  | .node l _ _ _ r => max (realHeightM l) (realHeightM r) + 1

/-- AVL balance condition on actual subtree heights: at every node the
children's heights differ by at most one. -/
def isBalancedM : MTree → Bool
  | .nil => true
  | .node l _ _ _ r =>
    decide ((realHeightM l - realHeightM r).natAbs ≤ 1) &&
      isBalancedM l && isBalancedM r

/-- Height-cache coherence: at every node the cached `height` field equals
`1 + max(height(left child), height(right child))` over the cached fields. -/
def heightsOkM : MTree → Bool
  | .nil => true
  | .node l _ _ h r =>
    (h == max (hgtM l) (hgtM r) + 1) && heightsOkM l && heightsOkM r

/-- Node structure of `AvlTree<int>` (`avltree.hpp` lines 21-41): children,
`data`, cached `height`; `nil` is the null `std::unique_ptr<Node>`. -/
inductive TreeS : Type
  | nil : TreeS
  | node (l : TreeS) (d : Int) (h : Int) (r : TreeS) : TreeS
  deriving DecidableEq, Repr

/-- `AvlTree::height` (lines 198-201). -/
def hgtS : TreeS → Int
  | .nil => -1
  | .node _ _ h _ => h

/-- The final height re-derivation of `AvlTree::balance` (line 317). -/
def setHS : TreeS → TreeS
  | .nil => .nil
  | .node l d _ r => .node l d (max (hgtS l) (hgtS r) + 1) r

/-- The `left` field of a node (junk on `nil`, standing for the null
dereference the C++ would perform; unreachable from program states). -/
def leftOfS : TreeS → TreeS
  | .nil => .nil
  | .node l _ _ _ => l

/-- The `right` field of a node (same caveat as `leftOfS`). -/
def rightOfS : TreeS → TreeS
  | .nil => .nil
  | .node _ _ _ r => r

/-- `AvlTree::rotateWithLeftChild` (lines 327-335). -/
def rotLS : TreeS → TreeS
  | .node (.node a ld _ b) x _ r =>
      .node a ld (max (hgtS a) (max (hgtS b) (hgtS r) + 1) + 1)
        (.node b x (max (hgtS b) (hgtS r) + 1) r)
  | t => t

/-- `AvlTree::rotateWithRightChild` (lines 342-350). -/
def rotRS : TreeS → TreeS
  | .node l x _ (.node b rd _ c) =>
      .node (.node l x (max (hgtS l) (hgtS b) + 1) b) rd
        (max (hgtS c) (max (hgtS l) (hgtS b) + 1) + 1) c
  | t => t

/-- `AvlTree::doubleWithLeftChild` (lines 358-362). -/
def dblLS : TreeS → TreeS
  | .node l x h r => rotLS (.node (rotRS l) x h r)
  | .nil => .nil

/-- `AvlTree::doubleWithRightChild` (lines 370-374). -/
def dblRS : TreeS → TreeS
  | .node l x h r => rotRS (.node l x h (rotLS r))
  | .nil => .nil

/-- `AvlTree::balance` (lines 298-318). -/
def balanceS : TreeS → TreeS
  | .nil => .nil
  | .node l d h r =>
    if hgtS l - hgtS r > 1 then
      if hgtS (leftOfS l) ≥ hgtS (rightOfS l) then
        setHS (rotLS (.node l d h r))
      else
        setHS (dblLS (.node l d h r))
    else if hgtS r - hgtS l > 1 then
      if hgtS (rightOfS r) ≥ hgtS (leftOfS r) then
        setHS (rotRS (.node l d h r))
      else
        setHS (dblRS (.node l d h r))
    else
      setHS (.node l d h r)

/-- `AvlTree::insert_util` (lines 230-243).  The member mutates the `sz`
field in its duplicate-key branch (`--sz`), so the counter is threaded
through explicitly. -/
def insert_utilS (x : Int) : TreeS → Nat → TreeS × Nat
  | .nil, s => (balanceS (.node .nil x 0 .nil), s)
  | .node l d h r, s =>
    if x < d then
      let p := insert_utilS x l s
      (balanceS (.node p.1 d h r), p.2)
    else if d < x then
      let p := insert_utilS x r s
      (balanceS (.node l d h p.1), p.2)
    else
      (balanceS (.node l d h r), decSz s)

/-- `*findMin(t)` (lines 274-283): data of the leftmost node; the `nil`
case is junk standing for the null dereference, only used under a guard
that excludes it. -/
def minValS : TreeS → Int
  | .nil => 0
  | .node .nil d _ _ => d
  | .node l _ _ _ => minValS l

/-- `AvlTree::remove_util` (lines 246-271), including the
`else if (t->data == x) { ++sz; return; }` branch that precedes the
two-children and one-child cases (for `int` data the `==` test agrees with
equality, so this branch fires whenever the key is found, returns without
deleting anything and without calling `balance`, and the deletion branches
below it are unreachable).  The member mutates `sz`, threaded explicitly. -/
def remove_utilS (x : Int) : TreeS → Nat → TreeS × Nat
  | .nil, s => (.nil, s)
  | .node l d h r, s =>
    if x < d then
      let p := remove_utilS x l s
      (balanceS (.node p.1 d h r), p.2)
    else if d < x then
      let p := remove_utilS x r s
      (balanceS (.node l d h p.1), p.2)
    else if d = x then
      (.node l d h r, incSz s)
    else if l ≠ .nil ∧ r ≠ .nil then
      let p := remove_utilS (minValS r) r s
      (balanceS (.node l (minValS r) h p.1), p.2)
    else
      (balanceS (if l ≠ TreeS.nil then l else r), s)

/-- `findMin` (lines 274-283) as the C++ function returns it: the null
pointer (`none`) when the tree is empty. -/
def findMinS : TreeS → Option Int
  | .nil => none
  | .node .nil d _ _ => some d
  | .node l _ _ _ => findMinS l

/-- `findMax` (lines 286-295). -/
def findMaxS : TreeS → Option Int
  | .nil => none
  | .node _ d _ .nil => some d
  | .node _ _ _ r => findMaxS r

/-- In-order list of elements (the order `print`, lines 204-211, traverses
the nodes in). -/
def inorderS : TreeS → List Int
  | .nil => []
  | .node l d _ r => inorderS l ++ d :: inorderS r

/-- Number of nodes reachable from the root. -/
def countS : TreeS → Nat
  | .nil => 0
  | .node l _ _ r => countS l + countS r + 1

/-- State of an `AvlTree<int>` object: the `root` pointer and the `sz`
counter. -/
structure AvlSetS : Type where
  tree : TreeS
  sz : Nat
  deriving DecidableEq, Repr

/-- A default-constructed `AvlTree` (line 51). -/
def emptySet : AvlSetS := ⟨.nil, 0⟩

/-- `AvlTree::insert` single-argument form (lines 131-136): `insert_util`
on the root (which may itself decrement `sz` on a duplicate), then `++sz`. -/
def insertS (x : Int) (s : AvlSetS) : AvlSetS :=
  let p := insert_utilS x s.tree s.sz
  ⟨p.1, incSz p.2⟩

/-- `AvlTree::remove` single-argument form (lines 147-151): `remove_util`
on the root (which may itself increment `sz`), then `--sz`. -/
def removeS (x : Int) (s : AvlSetS) : AvlSetS :=
  let p := remove_utilS x s.tree s.sz
  ⟨p.1, decSz p.2⟩

/-- `AvlTree::clear` (lines 165-168): `root.reset(nullptr)`; the `sz`
field is left untouched. -/
def clearS (s : AvlSetS) : AvlSetS :=
  ⟨.nil, s.sz⟩

/-- Outcome of `min_element` / `max_element`: a returned element, the
`std::logic_error("Empty container")` throw, or the undefined behaviour of
dereferencing the null pointer returned by `findMin`/`findMax`. -/
inductive ElemResult : Type
  | ok (v : Int) : ElemResult
  | errEmptyContainer : ElemResult
  | errNullDeref : ElemResult
  deriving DecidableEq, Repr

/-- `AvlTree::min_element` (lines 153-157): the emptiness test is
`sz == 0` (`empty`, lines 112-115), after which `*findMin(root)` is
dereferenced unconditionally. -/
def minElementS (s : AvlSetS) : ElemResult :=
  if s.sz = 0 then .errEmptyContainer
  else match findMinS s.tree with
    | none => .errNullDeref
    | some d => .ok d

/-- `AvlTree::max_element` (lines 159-163). -/
def maxElementS (s : AvlSetS) : ElemResult :=
  if s.sz = 0 then .errEmptyContainer
  else match findMaxS s.tree with
    | none => .errNullDeref
    | some d => .ok d

/-- Sequential insertion of a list of keys, as performed by the
iterator-range constructor (lines 81-91) and by repeated `insert` calls. -/
def insertListS (xs : List Int) (s : AvlSetS) : AvlSetS :=
  xs.foldl (fun acc x => insertS x acc) s

/-- Insertion of a pair into an association list at the position the
in-order sequence of a search tree assigns to its key; an already-present
key leaves the list unchanged (the behaviour of the equal-key branches of
`insert_util` and of the slot insertion of `operator[]`). -/
def insEntries (k v : Int) : List (Int × Int) → List (Int × Int)
  | [] => [(k, v)]
  | p :: rest =>
    if k < p.1 then (k, v) :: p :: rest
    else if p.1 < k then p :: insEntries k v rest
    else p :: rest

/-- Key-level counterpart of `insEntries`. -/
def insKey (k : Int) : List Int → List Int
  | [] => [k]
  | a :: rest =>
    if k < a then k :: a :: rest
    else if a < k then a :: insKey k rest
    else a :: rest

theorem entriesM_setH (t : MTree) : entriesM (setHM t) = entriesM t := by
  cases t <;> rfl

theorem entriesM_rotL (t : MTree) : entriesM (rotLM t) = entriesM t := by
  cases t with
  | nil => rfl
  | node l x v h r =>
    cases l with
    | nil => rfl
    | node a lk lv lh b => simp [rotLM, entriesM, List.append_assoc]

theorem entriesM_rotR (t : MTree) : entriesM (rotRM t) = entriesM t := by
  cases t with
  | nil => rfl
  | node l x v h r =>
    cases r with
    | nil => rfl
    | node b rk rv rh c => simp [rotRM, entriesM, List.append_assoc]

theorem entriesM_dblL (t : MTree) : entriesM (dblLM t) = entriesM t := by
  cases t with
  | nil => rfl
  | node l x v h r => simp [dblLM, entriesM_rotL, entriesM, entriesM_rotR]

theorem entriesM_dblR (t : MTree) : entriesM (dblRM t) = entriesM t := by
  cases t with
  | nil => rfl
  | node l x v h r => simp [dblRM, entriesM_rotR, entriesM, entriesM_rotL]

theorem entriesM_balance (t : MTree) : entriesM (balanceM t) = entriesM t := by
  cases t with
  | nil => rfl
  | node l k v h r =>
    simp only [balanceM]
    split_ifs <;>
      simp [entriesM_setH, entriesM_rotL, entriesM_rotR, entriesM_dblL, entriesM_dblR]

theorem insEntries_map_fst (k v : Int) (l : List (Int × Int)) :
    (insEntries k v l).map Prod.fst = insKey k (l.map Prod.fst) := by
  induction l with
  | nil => rfl
  | cons p rest ih =>
    simp only [insEntries, insKey, List.map_cons]
    split_ifs <;> simp [ih]

theorem insEntries_of_forall_lt {k v : Int} {l : List (Int × Int)}
    (h : ∀ p ∈ l, k < p.1) : insEntries k v l = (k, v) :: l := by
  cases l with
  | nil => rfl
  | cons p rest => simp [insEntries, h p (List.mem_cons_self p rest)]

theorem insEntries_append_right_lt {k v : Int} (xs ys : List (Int × Int))
    (h : ∀ p ∈ ys, k < p.1) :
    insEntries k v (xs ++ ys) = insEntries k v xs ++ ys := by
  induction xs with
  | nil => simp [insEntries_of_forall_lt h, insEntries]
  | cons a xs ih =>
    simp only [List.cons_append, insEntries]
    split_ifs <;> simp [ih]

theorem insEntries_append_left_gt {k v : Int} (xs : List (Int × Int))
    {ys : List (Int × Int)} (h : ∀ p ∈ xs, p.1 < k) :
    insEntries k v (xs ++ ys) = xs ++ insEntries k v ys := by
  induction xs with
  | nil => simp
  | cons a xs ih =>
    have ha : a.1 < k := h a (List.mem_cons_self a xs)
    simp only [List.cons_append, insEntries, if_neg (by omega : ¬ k < a.1),
      if_pos ha]
    simp only [List.cons_append, List.cons.injEq, true_and]
    exact ih (fun p hp => h p (List.mem_cons_of_mem a hp))

theorem mem_insKey {b k : Int} : ∀ {xs : List Int}, b ∈ insKey k xs → b = k ∨ b ∈ xs := by
  intro xs
  induction xs with
  | nil => intro h; simpa [insKey] using h
  | cons a rest ih =>
    intro h
    simp only [insKey] at h
    split_ifs at h with h1 h2
    · rcases List.mem_cons.mp h with rfl | h
      · exact Or.inl rfl
      · exact Or.inr h
    · rcases List.mem_cons.mp h with rfl | h
      · exact Or.inr (List.mem_cons_self _ _)
      · rcases ih h with h' | h'
        · exact Or.inl h'
        · exact Or.inr (List.mem_cons_of_mem a h')
    · exact Or.inr h

theorem pairwise_insKey {k : Int} {xs : List Int}
    (h : List.Pairwise (· < ·) xs) : List.Pairwise (· < ·) (insKey k xs) := by
  induction xs with
  | nil => simp [insKey]
  | cons a rest ih =>
    rcases List.pairwise_cons.mp h with ⟨ha, hrest⟩
    simp only [insKey]
    split_ifs with h1 h2
    · exact List.pairwise_cons.mpr
        ⟨by
          intro b hb
          rcases List.mem_cons.mp hb with rfl | hb
          · exact h1
          · exact lt_trans h1 (ha b hb), h⟩
    · refine List.pairwise_cons.mpr ⟨?_, ih hrest⟩
      intro b hb
      rcases mem_insKey hb with rfl | hb
      · exact h2
      · exact ha b hb
    · exact h

theorem keysM_node (l : MTree) (k v h : Int) (r : MTree) :
    keysM (.node l k v h r) = keysM l ++ k :: keysM r := by
  simp [keysM, entriesM]

theorem isBSTM_node_iff {l r : MTree} {k v h : Int} :
    isBSTM (.node l k v h r) ↔
      isBSTM l ∧ isBSTM r ∧ (∀ a ∈ keysM l, a < k) ∧ (∀ b ∈ keysM r, k < b) := by
  simp only [isBSTM, keysM_node, List.pairwise_append, List.pairwise_cons,
    List.mem_cons]
  constructor
  · rintro ⟨h1, ⟨h2, h3⟩, h4⟩
    exact ⟨h1, h3, fun a ha => h4 a ha k (Or.inl rfl), h2⟩
  · rintro ⟨h1, h2, h3, h4⟩
    refine ⟨h1, ⟨h4, h2⟩, ?_⟩
    rintro a ha b (rfl | hb)
    · exact h3 a ha
    · exact lt_trans (h3 a ha) (h4 b hb)

theorem mem_insEntries_self {k v : Int} : ∀ {l : List (Int × Int)},
    k ∉ l.map Prod.fst → (k, v) ∈ insEntries k v l := by
  intro l
  induction l with
  | nil => intro _; simp [insEntries]
  | cons p rest ih =>
    intro h
    simp only [List.map_cons, List.mem_cons] at h
    push_neg at h
    simp only [insEntries]
    split_ifs with h1 h2
    · exact List.mem_cons_self _ _
    · exact List.mem_cons_of_mem p (ih h.2)
    · exact absurd (by omega : k = p.1) h.1

theorem insEntries_of_mem {k v : Int} : ∀ {l : List (Int × Int)},
    List.Pairwise (· < ·) (l.map Prod.fst) → k ∈ l.map Prod.fst →
    insEntries k v l = l := by
  intro l
  induction l with
  | nil => intro _ h; simp at h
  | cons p rest ih =>
    intro hs h
    simp only [List.map_cons, List.pairwise_cons] at hs
    simp only [List.map_cons, List.mem_cons] at h
    simp only [insEntries]
    split_ifs with h1 h2
    · exfalso
      rcases h with rfl | h
      · omega
      · exact absurd (hs.1 k h) (by omega)
    · rcases h with rfl | h
      · omega
      · rw [ih hs.2 h]
    · rfl

theorem lookupV_eq_of_mem {k v : Int} : ∀ {t : MTree},
    isBSTM t → (k, v) ∈ entriesM t → lookupV k t = some v := by
  intro t
  induction t with
  | nil => intro _ h; simp [entriesM] at h
  | node l k' v' h' r ihl ihr =>
    intro hb hm
    rcases isBSTM_node_iff.mp hb with ⟨hbl, hbr, hlk, hkr⟩
    simp only [entriesM, List.mem_append, List.mem_cons] at hm
    simp only [lookupV]
    split_ifs with h1 h2
    · rcases hm with hm | hm | hm
      · exact ihl hbl hm
      · exact absurd (congrArg Prod.fst hm : k = k') (by omega)
      · exact absurd (hkr k (List.mem_map_of_mem Prod.fst hm)) (by omega)
    · rcases hm with hm | hm | hm
      · exact absurd (hlk k (List.mem_map_of_mem Prod.fst hm)) (by omega)
      · exact absurd (congrArg Prod.fst hm : k = k') (by omega)
      · exact ihr hbr hm
    · rcases hm with hm | hm | hm
      · exact absurd (hlk k (List.mem_map_of_mem Prod.fst hm)) (by omega)
      · exact congrArg (fun p => some p.2) hm.symm
      · exact absurd (hkr k (List.mem_map_of_mem Prod.fst hm)) (by omega)

theorem lookupV_eq_none_of_not_mem {k : Int} : ∀ {t : MTree},
    k ∉ keysM t → lookupV k t = none := by
  intro t
  induction t with
  | nil => intro _; rfl
  | node l k' v' h' r ihl ihr =>
    intro hm
    simp only [keysM_node, List.mem_append, List.mem_cons] at hm
    push_neg at hm
    simp only [lookupV]
    split_ifs with h1 h2
    · exact ihl hm.1
    · exact ihr hm.2.2
    · exact absurd (by omega : k = k') hm.2.1

theorem entriesM_insert_util (k v : Int) : ∀ (t : MTree), isBSTM t →
    entriesM (insert_utilM k v t) = insEntries k v (entriesM t) := by
  intro t
  induction t with
  | nil =>
    intro _
    rw [insert_utilM, entriesM_balance]
    rfl
  | node l k' v' h' r ihl ihr =>
    intro hb
    rcases isBSTM_node_iff.mp hb with ⟨hbl, hbr, hlk, hkr⟩
    simp only [insert_utilM]
    split_ifs with h1 h2
    · rw [entriesM_balance]
      simp only [entriesM]
      rw [ihl hbl]
      rw [insEntries_append_right_lt (entriesM l)
        ((k', v') :: entriesM r) ?_]
      intro p hp
      rcases List.mem_cons.mp hp with rfl | hp
      · exact h1
      · exact lt_trans h1 (hkr p.1 (List.mem_map_of_mem Prod.fst hp))
    · rw [entriesM_balance]
      simp only [entriesM]
      rw [ihr hbr]
      have hx : ∀ p ∈ entriesM l ++ [(k', v')], p.1 < k := by
        intro p hp
        rcases List.mem_append.mp hp with hp | hp
        · exact lt_trans (hlk p.1 (List.mem_map_of_mem Prod.fst hp)) h2
        · rw [List.mem_singleton.mp hp]
          exact h2
      calc entriesM l ++ (k', v') :: insEntries k v (entriesM r)
          = (entriesM l ++ [(k', v')]) ++ insEntries k v (entriesM r) := by
            simp
        _ = insEntries k v ((entriesM l ++ [(k', v')]) ++ entriesM r) :=
            (insEntries_append_left_gt _ hx).symm
        _ = insEntries k v (entriesM l ++ (k', v') :: entriesM r) := by
            simp
    · rw [entriesM_balance]
      simp only [entriesM]
      rw [insEntries_append_left_gt (entriesM l)
        (fun p hp => by
          have := hlk p.1 (List.mem_map_of_mem Prod.fst hp)
          omega)]
      simp only [insEntries, if_neg h1, if_neg h2]

theorem entriesM_slotInsert (k v : Int) : ∀ (t : MTree), isBSTM t →
    entriesM (slotInsert k v t) = insEntries k v (entriesM t) := by
  intro t
  induction t with
  | nil => intro _; rfl
  | node l k' v' h' r ihl ihr =>
    intro hb
    rcases isBSTM_node_iff.mp hb with ⟨hbl, hbr, hlk, hkr⟩
    simp only [slotInsert]
    split_ifs with h1 h2
    · simp only [entriesM]
      rw [ihl hbl]
      rw [insEntries_append_right_lt (entriesM l)
        ((k', v') :: entriesM r) ?_]
      intro p hp
      rcases List.mem_cons.mp hp with rfl | hp
      · exact h1
      · exact lt_trans h1 (hkr p.1 (List.mem_map_of_mem Prod.fst hp))
    · simp only [entriesM]
      rw [ihr hbr]
      have hx : ∀ p ∈ entriesM l ++ [(k', v')], p.1 < k := by
        intro p hp
        rcases List.mem_append.mp hp with hp | hp
        · exact lt_trans (hlk p.1 (List.mem_map_of_mem Prod.fst hp)) h2
        · rw [List.mem_singleton.mp hp]
          exact h2
      calc entriesM l ++ (k', v') :: insEntries k v (entriesM r)
          = (entriesM l ++ [(k', v')]) ++ insEntries k v (entriesM r) := by
            simp
        _ = insEntries k v ((entriesM l ++ [(k', v')]) ++ entriesM r) :=
            (insEntries_append_left_gt _ hx).symm
        _ = insEntries k v (entriesM l ++ (k', v') :: entriesM r) := by
            simp
    · simp only [entriesM]
      rw [insEntries_append_left_gt (entriesM l)
        (fun p hp => by
          have := hlk p.1 (List.mem_map_of_mem Prod.fst hp)
          omega)]
      simp only [insEntries, if_neg h1, if_neg h2]

theorem isBSTM_insert_util (k v : Int) (t : MTree) (hb : isBSTM t) :
    isBSTM (insert_utilM k v t) := by
  show List.Pairwise (· < ·) (keysM (insert_utilM k v t))
  rw [keysM, entriesM_insert_util k v t hb, insEntries_map_fst]
  exact pairwise_insKey hb

theorem isBSTM_slotInsert (k v : Int) (t : MTree) (hb : isBSTM t) :
    isBSTM (slotInsert k v t) := by
  show List.Pairwise (· < ·) (keysM (slotInsert k v t))
  rw [keysM, entriesM_slotInsert k v t hb, insEntries_map_fst]
  exact pairwise_insKey hb

theorem incSz_eq_succ {n : Nat} (h : n + 1 < szMod) : incSz n = n + 1 :=
  Nat.mod_eq_of_lt h

/-- C1: evaluation of the Set round-trip in the code.  Inserting the keys
1..10 into `AvlTree<int>` and then calling `remove(8)` and `remove(10)`
leaves the in-order sequence `1,...,10` unchanged, with `size() = 10`: the
equal-key branch of `remove_util` (`else if (t->data == x) { ++sz; return; }`)
fires whenever the key is found and returns without deleting the node, so
`remove` of a present key deletes nothing — contradicting the claimed
in-order result `1,...,7,9`. -/
theorem C1_remove_does_not_delete :
    inorderS (removeS 10 (removeS 8 (insertListS [1,2,3,4,5,6,7,8,9,10] emptySet))).tree
      = [1,2,3,4,5,6,7,8,9,10] ∧
    (removeS 10 (removeS 8 (insertListS [1,2,3,4,5,6,7,8,9,10] emptySet))).sz = 10 := by
  decide

/-- C2 counterexample: on the concrete input `k = 5`, `v1 = 10`, `v2 = 20`
(starting from the empty map), after `insert(5,10); insert(5,20)` the lookup
of `5` does NOT return `v2 = 20` and the size is NOT unchanged by the second
insert: the equal-key branch of `AvlMap::insert_util` leaves the stored
value alone, and `AvlMap::insert` increments `sz` unconditionally. -/
theorem C2_counterexample :
    ¬ (lookupV 5 (insertM 5 20 (insertM 5 10 emptyMap)).tree = some 20 ∧
       (insertM 5 20 (insertM 5 10 emptyMap)).sz = (insertM 5 10 emptyMap).sz) := by
  decide

/-- C2 amended: for any map state whose tree is a binary search tree, any
key `k` not present in it, and any values `v1`, `v2`: `insert(k, v1)` then
`insert(k, v2)` leaves the map with `k` associated to `v1` (the second
insert does not overwrite), and the second insert increases `size()` by
exactly one. -/
theorem C2_insert_twice_amended (m : AvlMapS) (k v1 v2 : Int)
    (hb : isBSTM m.tree) (hk : k ∉ keysM m.tree) (hs : m.sz + 2 < szMod) :
    lookupV k (insertM k v2 (insertM k v1 m)).tree = some v1 ∧
    (insertM k v2 (insertM k v1 m)).sz = (insertM k v1 m).sz + 1 := by
  have e1 := entriesM_insert_util k v1 m.tree hb
  have b1 := isBSTM_insert_util k v1 m.tree hb
  have hmem : (k, v1) ∈ entriesM (insert_utilM k v1 m.tree) := by
    rw [e1]
    exact mem_insEntries_self hk
  have hkin : k ∈ keysM (insert_utilM k v1 m.tree) := by
    show k ∈ (entriesM (insert_utilM k v1 m.tree)).map Prod.fst
    exact List.mem_map_of_mem Prod.fst hmem
  have e2 : entriesM (insert_utilM k v2 (insert_utilM k v1 m.tree))
      = entriesM (insert_utilM k v1 m.tree) := by
    rw [entriesM_insert_util k v2 _ b1]
    exact insEntries_of_mem b1 hkin
  have b2 : isBSTM (insert_utilM k v2 (insert_utilM k v1 m.tree)) :=
    isBSTM_insert_util k v2 _ b1
  constructor
  · show lookupV k (insert_utilM k v2 (insert_utilM k v1 m.tree)) = some v1
    exact lookupV_eq_of_mem b2 (by rw [e2]; exact hmem)
  · show incSz (incSz m.sz) = incSz m.sz + 1
    rw [incSz_eq_succ (by omega : m.sz + 1 < szMod),
      incSz_eq_succ (by omega : m.sz + 1 + 1 < szMod)]

/-- C2 witness: the amended statement instantiated at the empty map with
`k = 5`, `v1 = 10`, `v2 = 20`. -/
theorem C2_amended_witness :
    lookupV 5 (insertM 5 20 (insertM 5 10 emptyMap)).tree = some 10 ∧
    (insertM 5 20 (insertM 5 10 emptyMap)).sz = (insertM 5 10 emptyMap).sz + 1 :=
  C2_insert_twice_amended emptyMap 5 10 20 List.Pairwise.nil
    (List.not_mem_nil 5) (by decide)

/-- C3: evaluation of the code at absent-key removals.  `AvlMap::erase` and
`AvlTree::remove` decrement `sz` unconditionally while `remove_util` exits
its not-found branch without compensation, so removing an absent key leaves
the in-order sequence unchanged but changes `size()`: on an empty container
it wraps around to `2^64 - 1`, and on the one-element Set `{1}` removing the
absent key `2` drops `size()` to `0` while the tree still holds `1`. -/
theorem C3_absent_removal_changes_size :
    (eraseM 1 emptyMap).sz = szMod - 1 ∧ entriesM (eraseM 1 emptyMap).tree = [] ∧
    (removeS 1 emptySet).sz = szMod - 1 ∧ inorderS (removeS 1 emptySet).tree = [] ∧
    (removeS 2 (insertS 1 emptySet)).sz = 0 ∧
    inorderS (removeS 2 (insertS 1 emptySet)).tree = [1] := by
  decide

/-- C4: evaluation of the code after the mutating operations
`m[1]; m[2]; m[3]` on an empty `AvlMap<int,int>`.  `operator[]` inserts at
the slot found by `search` without rebalancing or updating any ancestor, so
the resulting tree is a right path of three nodes: the AVL balance
invariant `|height(left) - height(right)| <= 1` (on actual subtree heights)
fails at the root, contradicting the claim that it holds after every public
mutating operation. -/
theorem C4_bracket_breaks_balance :
    isBalancedM ((bracketM 3 (bracketM 2 (bracketM 1 emptyMap).2).2).2).tree = false ∧
    ((bracketM 3 (bracketM 2 (bracketM 1 emptyMap).2).2).2).tree
      = .node .nil 1 0 0 (.node .nil 2 0 0 (.node .nil 3 0 0 .nil)) := by
  decide

/-- C5: evaluation of the code after `clear()`.  `AvlTree::clear` and
`AvlMap::clear` reset the root pointer but leave the `sz` field untouched,
so after inserting one element and clearing, `size()` is still `1` while
zero nodes are reachable from the root. -/
theorem C5_clear_leaves_size_stale :
    (clearS (insertS 1 emptySet)).sz = 1 ∧
    countS (clearS (insertS 1 emptySet)).tree = 0 ∧
    (clearM (insertM 1 0 emptyMap)).sz = 1 ∧
    countM (clearM (insertM 1 0 emptyMap)).tree = 0 := by
  decide

/-- C6: evaluation of `min_element`/`max_element` on containers emptied by
`clear()`.  Since `empty()` tests `sz == 0` and `clear()` does not reset
`sz`, after `insert(1); clear()` the guard does not fire and
`*findMin(root)` dereferences the null root (undefined behaviour) instead
of failing with the EmptyContainer error; conversely after
`insert(1); remove(2)` the stale `sz == 0` makes `min_element` fail with
EmptyContainer although the tree still holds the element `1`. -/
theorem C6_minmax_error_mismatch :
    minElementS (clearS (insertS 1 emptySet)) = .errNullDeref ∧
    maxElementS (clearS (insertS 1 emptySet)) = .errNullDeref ∧
    minElementS (removeS 2 (insertS 1 emptySet)) = .errEmptyContainer ∧
    inorderS (removeS 2 (insertS 1 emptySet)).tree = [1] := by
  decide

/-- C7: for any map state whose tree is a binary search tree and any key
`k` not present in it, evaluating the non-const `m[k]` inserts a node with
key `k` and the default-constructed value `int()` (= 0), increases `size()`
by exactly one, and returns that value; a subsequent `m[k]` returns the
same default and leaves the map unchanged. -/
theorem C7_bracket_access_or_insert (m : AvlMapS) (k : Int)
    (hb : isBSTM m.tree) (hk : k ∉ keysM m.tree) (hs : m.sz + 1 < szMod) :
    (bracketM k m).1 = 0 ∧
    (bracketM k m).2.sz = m.sz + 1 ∧
    lookupV k (bracketM k m).2.tree = some 0 ∧
    bracketM k (bracketM k m).2 = (0, (bracketM k m).2) := by
  have hnone : lookupV k m.tree = none := lookupV_eq_none_of_not_mem hk
  have hbr : bracketM k m = (0, ⟨slotInsert k 0 m.tree, incSz m.sz⟩) := by
    simp [bracketM, hnone]
  have b1 := isBSTM_slotInsert k 0 m.tree hb
  have hmem : ((k, 0) : Int × Int) ∈ entriesM (slotInsert k 0 m.tree) := by
    rw [entriesM_slotInsert k 0 m.tree hb]
    exact mem_insEntries_self hk
  have hlk : lookupV k (slotInsert k 0 m.tree) = some 0 :=
    lookupV_eq_of_mem b1 hmem
  rw [hbr]
  refine ⟨rfl, incSz_eq_succ hs, hlk, ?_⟩
  simp [bracketM, hlk]

/-- C7 witness: the statement instantiated at the empty map with `k = 7`. -/
theorem C7_bracket_witness :
    (bracketM 7 emptyMap).1 = 0 ∧
    (bracketM 7 emptyMap).2.sz = emptyMap.sz + 1 ∧
    lookupV 7 (bracketM 7 emptyMap).2.tree = some 0 ∧
    bracketM 7 (bracketM 7 emptyMap).2 = (0, (bracketM 7 emptyMap).2) :=
  C7_bracket_access_or_insert emptyMap 7 List.Pairwise.nil
    (List.not_mem_nil 7) (by decide)

/-- C8: evaluation of the cached heights after the mutating operations
`m[1]; m[2]; m[3]` on an empty `AvlMap<int,int>`.  `operator[]` creates the
new leaf at the slot found by `search` and never updates any ancestor's
`height` field, so these operations build the right path
`1 -> 2 -> 3` with all three cached heights 0, and the height-cache
equation `height = 1 + max(height(left), height(right))` fails,
contradicting the claim that it holds after every public mutating
operation: at the root node the cached `height` field is `0` while
`1 + max(height(left child), height(right child))` over the cached fields
is `1` (and likewise at the middle node). -/
theorem C8_bracket_breaks_heights :
    heightsOkM ((bracketM 3 (bracketM 2 (bracketM 1 emptyMap).2).2).2).tree = false ∧
    ((bracketM 3 (bracketM 2 (bracketM 1 emptyMap).2).2).2).tree
      = .node .nil 1 0 0 (.node .nil 2 0 0 (.node .nil 3 0 0 .nil)) ∧
    hgtM ((bracketM 3 (bracketM 2 (bracketM 1 emptyMap).2).2).2).tree = 0 ∧
    max (hgtM (leftOfM ((bracketM 3 (bracketM 2 (bracketM 1 emptyMap).2).2).2).tree))
        (hgtM (rightOfM ((bracketM 3 (bracketM 2 (bracketM 1 emptyMap).2).2).2).tree))
      + 1 = 1 := by
  decide

/-- C9: the case analysis of `AvlMap::balance` and `AvlTree::balance`.
Whenever a node is left-heavy (`height(left) - height(right) > 1`, on the
cached heights), `balance` performs the single rotation with the left child
exactly when `height(left->left) >= height(left->right)` and the
left-right double rotation otherwise — so a tie selects the single
rotation — and symmetrically for a right-heavy node; in each case the
node's height is then re-derived (`setHM`/`setHS`). -/
theorem C9_tie_break :
    (∀ (ll : MTree) (lk lv lh : Int) (lr r : MTree) (k v h : Int),
      hgtM (.node ll lk lv lh lr) - hgtM r > 1 →
      balanceM (.node (.node ll lk lv lh lr) k v h r) =
        (if hgtM ll ≥ hgtM lr
         then setHM (rotLM (.node (.node ll lk lv lh lr) k v h r))
         else setHM (dblLM (.node (.node ll lk lv lh lr) k v h r)))) ∧
    (∀ (l rl : MTree) (rk rv rh : Int) (rr : MTree) (k v h : Int),
      hgtM (.node rl rk rv rh rr) - hgtM l > 1 →
      balanceM (.node l k v h (.node rl rk rv rh rr)) =
        (if hgtM rr ≥ hgtM rl
         then setHM (rotRM (.node l k v h (.node rl rk rv rh rr)))
         else setHM (dblRM (.node l k v h (.node rl rk rv rh rr))))) ∧
    (∀ (ll : TreeS) (ld lh : Int) (lr r : TreeS) (d h : Int),
      hgtS (.node ll ld lh lr) - hgtS r > 1 →
      balanceS (.node (.node ll ld lh lr) d h r) =
        (if hgtS ll ≥ hgtS lr
         then setHS (rotLS (.node (.node ll ld lh lr) d h r))
         else setHS (dblLS (.node (.node ll ld lh lr) d h r)))) ∧
    (∀ (l rl : TreeS) (rd rh : Int) (rr : TreeS) (d h : Int),
      hgtS (.node rl rd rh rr) - hgtS l > 1 →
      balanceS (.node l d h (.node rl rd rh rr)) =
        (if hgtS rr ≥ hgtS rl
         then setHS (rotRS (.node l d h (.node rl rd rh rr)))
         else setHS (dblRS (.node l d h (.node rl rd rh rr))))) := by
  refine ⟨?_, ?_, ?_, ?_⟩
  · intro ll lk lv lh lr r k v h h1
    simp only [balanceM, leftOfM, rightOfM, if_pos h1]
  · intro l rl rk rv rh rr k v h h1
    have h0 : ¬ (hgtM l - hgtM (MTree.node rl rk rv rh rr) > 1) := by
      simp only [hgtM] at h1 ⊢
      omega
    simp only [balanceM, leftOfM, rightOfM, if_neg h0, if_pos h1]
  · intro ll ld lh lr r d h h1
    simp only [balanceS, leftOfS, rightOfS, if_pos h1]
  · intro l rl rd rh rr d h h1
    have h0 : ¬ (hgtS l - hgtS (TreeS.node rl rd rh rr) > 1) := by
      simp only [hgtS] at h1 ⊢
      omega
    simp only [balanceS, leftOfS, rightOfS, if_neg h0, if_pos h1]

/-- C9 witness: each of the four cases instantiated at a concrete
left-heavy (respectively right-heavy) node whose inner comparison is a tie,
so the equation picks the single rotation. -/
theorem C9_tie_break_witness :
    (hgtM (.node .nil 1 0 1 .nil) - hgtM .nil > 1 ∧
      balanceM (.node (.node .nil 1 0 1 .nil) 2 0 2 .nil) =
        (if hgtM MTree.nil ≥ hgtM MTree.nil
         then setHM (rotLM (.node (.node .nil 1 0 1 .nil) 2 0 2 .nil))
         else setHM (dblLM (.node (.node .nil 1 0 1 .nil) 2 0 2 .nil)))) ∧
    (hgtM (.node .nil 3 0 1 .nil) - hgtM .nil > 1 ∧
      balanceM (.node .nil 2 0 2 (.node .nil 3 0 1 .nil)) =
        (if hgtM MTree.nil ≥ hgtM MTree.nil
         then setHM (rotRM (.node .nil 2 0 2 (.node .nil 3 0 1 .nil)))
         else setHM (dblRM (.node .nil 2 0 2 (.node .nil 3 0 1 .nil))))) ∧
    (hgtS (.node .nil 1 1 .nil) - hgtS .nil > 1 ∧
      balanceS (.node (.node .nil 1 1 .nil) 2 2 .nil) =
        (if hgtS TreeS.nil ≥ hgtS TreeS.nil
         then setHS (rotLS (.node (.node .nil 1 1 .nil) 2 2 .nil))
         else setHS (dblLS (.node (.node .nil 1 1 .nil) 2 2 .nil)))) ∧
    (hgtS (.node .nil 3 1 .nil) - hgtS .nil > 1 ∧
      balanceS (.node .nil 2 2 (.node .nil 3 1 .nil)) =
        (if hgtS TreeS.nil ≥ hgtS TreeS.nil
         then setHS (rotRS (.node .nil 2 2 (.node .nil 3 1 .nil)))
         else setHS (dblRS (.node .nil 2 2 (.node .nil 3 1 .nil))))) :=
  ⟨⟨by decide, C9_tie_break.1 .nil 1 0 1 .nil .nil 2 0 2 (by decide)⟩,
   ⟨by decide, C9_tie_break.2.1 .nil .nil 3 0 1 .nil 2 0 2 (by decide)⟩,
   ⟨by decide, C9_tie_break.2.2.1 .nil 1 1 .nil .nil 2 2 (by decide)⟩,
   ⟨by decide, C9_tie_break.2.2.2 .nil .nil 3 1 .nil 2 2 (by decide)⟩⟩

/-- C10: the const overload of `AvlMap::at` only ever calls itself (its body
is `return at(k);`, which resolves to the same const overload), so for every
map state, key and amount of fuel it produces no result: the recursion
neither returns nor reaches any throwing code. -/
theorem C10_at_const_diverges :
    ∀ (fuel : Nat) (k : Int) (m : AvlMapS), atConstM fuel k m = none := by
  intro fuel
  induction fuel with
  | zero => intro k m; rfl
  | succ n ih =>
    intro k m
    simp only [atConstM]
    exact ih k m
